import Mathlib

/-!
Shallow embedding of segfo/lifegame (src/main.rs): Conway Game of Life on a
bordered grid, with an FNV1-based board fingerprint and a ring-buffer history
of past fingerprints used to detect repetition, together with proofs about
the embedded code.

Machine integers (usize) are modelled as Nat with explicit reduction mod 2^64
where the source wraps. Operations that panic in Rust, namely the integer
underflow in Cell::untouch and the remainder-by-zero in RingBuffer::enqueue
on a zero-capacity buffer, return Option, with none marking the panic.
-/

/-- 2^64, the modulus of wrapping usize arithmetic on the 64-bit target. -/
def U64 : Nat := 18446744073709551616

/-- OFFSET_BASIS64 from the source. -/
def OFFSET_BASIS64 : Nat := 14695981039346656037

/-- FNV_PRIME_64 from the source. -/
def FNV_PRIME_64 : Nat := 1099511628211

/-- CellState from the source: a cell is Dead or Live. -/
inductive CellState where
  | Dead
  | Live
deriving DecidableEq

/-- Cell from the source: current state plus the transient touch counter. -/
structure Cell where
  now_state : CellState
  count : Nat
deriving DecidableEq

/-- Cell::new creates a dead cell with count 0. -/
def Cell.new : Cell := { now_state := CellState.Dead, count := 0 }

/-- Cell::touch increments the counter. -/
def Cell.touch (c : Cell) : Cell := { c with count := c.count + 1 }

/-- Cell::untouch does count -= 1; the Rust subtraction underflows (panics)
when count is 0, modelled as none. -/
def Cell.untouch (c : Cell) : Option Cell :=
  if c.count = 0 then none else some { c with count := c.count - 1 }

/-- Cell::is_live. -/
def Cell.is_live (c : Cell) : Bool := c.now_state == CellState.Live

/-- Cell::commit_state: count 3 makes the cell live, count 2 keeps the
current state, anything else makes it dead; the counter is reset to 0. -/
def Cell.commit_state (c : Cell) : Cell :=
  { now_state :=
      match c.count with
      | 3 => CellState.Live
      | 2 => c.now_state
      | _ => CellState.Dead,
    count := 0 }

/-- Cell::set_state. -/
def Cell.set_state (c : Cell) (s : CellState) : Cell := { c with now_state := s }

/-- The board array Vec Vec Cell, modelled extensionally: grid y x is the
cell at row y, column x. Every access the program performs stays inside the
rectangle of (height+2) rows and (width+2) columns. -/
abbrev Grid := Nat → Nat → Cell

/-- Pointwise update of one cell, counterpart of a mutation of array[y][x]. -/
def Grid.modifyCell (g : Grid) (y x : Nat) (f : Cell → Cell) : Grid :=
  fun j i => if j = y ∧ i = x then f (g j i) else g j i

/-- A sequence of single-cell updates; used to relate the source loops to
per-cell descriptions. -/
def Grid.modifyFold (g : Grid) (l : List (Nat × Nat)) (f : Cell → Cell) : Grid :=
  l.foldl (fun g p => g.modifyCell p.1 p.2 f) g

/-- The touch loop in Board::reflesh_state: for y0 in 0..=2 and x0 in 0..=2,
array[y + y0 - 1][x + x0 - 1].touch(). -/
def Grid.touchNeighborhood (g : Grid) (y x : Nat) : Grid :=
  (List.range 3).foldl
    (fun g y0 =>
      (List.range 3).foldl
        (fun g x0 => g.modifyCell (y + y0 - 1) (x + x0 - 1) Cell.touch) g)
    g

/-- array[y][x].untouch(), propagating the potential underflow panic. -/
def Grid.untouchCell (g : Grid) (y x : Nat) : Option Grid :=
  ((g y x).untouch).map fun c => fun j i => if j = y ∧ i = x then c else g j i

/-- Body of the Board::reflesh_state loops for one interior coordinate: a
live cell touches its whole 3x3 neighborhood and then untouches itself. -/
def Grid.refleshCell (g : Grid) (y x : Nat) : Option Grid :=
  if (g y x).is_live then (g.touchNeighborhood y x).untouchCell y x else some g

/-- The loop in Board::commit_state applies Cell::commit_state to every cell
of the array, border rows and columns included. -/
def Grid.commitAll (g : Grid) (width height : Nat) : Grid :=
  (List.range (height + 2)).foldl
    (fun g y =>
      (List.range (width + 2)).foldl
        (fun g x => g.modifyCell y x Cell.commit_state) g)
    g

/-- FNV1::hash64 from the source: rows 1..cells.len()-1 and columns
1..cells[y].len()-1 (the interior only, row-major), mixing the contribution
(x+x)*(y+y), masked by liveness, into a wrapping FNV accumulation. -/
def FNV1.hash64 (width height : Nat) (g : Grid) : Nat :=
  (List.range' 1 height).foldl
    (fun hash y =>
      (List.range' 1 width).foldl
        (fun hash x =>
          ((FNV_PRIME_64 * hash) % U64) ^^^
            (((x + x) * (y + y)) % U64 * (if (g y x).is_live then 1 else 0)))
        hash)
    OFFSET_BASIS64

/-- Modelled from the spec (section 4.2), for comparison with the code: the
same FNV accumulation whose per-cell contribution is the product x * y of
the cell coordinates masked by liveness, as the spec words it. -/
def FNV1.specHash (width height : Nat) (g : Grid) : Nat :=
  (List.range' 1 height).foldl
    (fun hash y =>
      (List.range' 1 width).foldl
        (fun hash x =>
          ((FNV_PRIME_64 * hash) % U64) ^^^
            ((x * y) % U64 * (if (g y x).is_live then 1 else 0)))
        hash)
    OFFSET_BASIS64

/-- RingBuffer from the source. -/
structure RingBuffer (α : Type) where
  buf : List α
  write : Nat
  read : Nat
  buf_size : Nat
  buf_capacity : Nat
deriving DecidableEq

/-- RingBuffer::new fills buffer_capacity slots with init_data. -/
def RingBuffer.new {α : Type} (buffer_capacity : Nat) (init_data : α) : RingBuffer α :=
  { buf := List.replicate buffer_capacity init_data
    write := 0
    read := 0
    buf_size := 0
    buf_capacity := buffer_capacity }

/-- RingBuffer::enqueue. On a zero-capacity buffer the Rust code reaches
read %= self.buf_capacity, a remainder by zero, and panics: modelled as
none. Otherwise it bumps buf_size (or advances read when full), writes at
write % buf_capacity and advances write. -/
def RingBuffer.enqueue {α : Type} (rb : RingBuffer α) (data : α) : Option (RingBuffer α) :=
  if rb.buf_capacity = 0 then none
  else
    let rb1 :=
      if rb.buf_size < rb.buf_capacity then { rb with buf_size := rb.buf_size + 1 }
      else { rb with read := rb.read % rb.buf_capacity + 1 }
    let w := rb1.write % rb1.buf_capacity
    some { rb1 with buf := rb1.buf.set w data, write := w + 1 }

/-- RingBuffer::is_in_data: a linear scan of the whole backing vector. -/
def RingBuffer.is_in_data {α : Type} [BEq α] (rb : RingBuffer α) (data : α) : Bool :=
  rb.buf.contains data

/-- Enqueue a list of values left to right (harness helper for the claims
about sequences of enqueues). -/
def RingBuffer.enqueueAll {α : Type} (rb : RingBuffer α) (l : List α) : Option (RingBuffer α) :=
  l.foldlM RingBuffer.enqueue rb

/-- Board from the source. -/
structure Board where
  array : Grid
  old_hash : RingBuffer Nat
  width : Nat
  height : Nat

/-- Board::new: an all-dead array of (y+2) rows and (x+2) columns and a
fresh history ring buffer filled with 0. -/
def Board.new (x y board_histories : Nat) : Board :=
  { array := fun _ _ => Cell.new
    old_hash := RingBuffer.new board_histories 0
    width := x
    height := y }

/-- Board::set_live: each point (x, y) makes array[y + 1][x + 1] live. -/
def Board.set_live (b : Board) (points : List (Nat × Nat)) : Board :=
  { b with
      array := points.foldl
        (fun g p => g.modifyCell (p.2 + 1) (p.1 + 1) (fun c => c.set_state CellState.Live))
        b.array }

/-- Board::reflesh_state: the touch phase over all interior coordinates in
row-major order (rows 1..array.len()-1, columns 1..array[y].len()-1). -/
def Board.reflesh_state (b : Board) : Option Board :=
  ((List.range' 1 b.height).foldlM
    (fun g y => (List.range' 1 b.width).foldlM (fun g x => Grid.refleshCell g y x) g)
    b.array).map fun g => { b with array := g }

/-- Board::to_hash. -/
def Board.to_hash (b : Board) : Nat := FNV1.hash64 b.width b.height b.array

/-- Board::commit_state: first enqueue the hash of the current (pre-commit)
array into the history, then commit every cell. -/
def Board.commit_state (b : Board) : Option Board :=
  (b.old_hash.enqueue b.to_hash).map fun rb =>
    { b with array := b.array.commitAll b.width b.height, old_hash := rb }

/-- Board::is_done: is the hash of the current array in the history. -/
def Board.is_done (b : Board) : Bool := b.old_hash.is_in_data b.to_hash

/-- Row-major list of coordinate pairs (y, x) with y drawn from ys and x
from xs; the iteration space of the nested source loops. -/
def prodList (ys xs : List Nat) : List (Nat × Nat) :=
  ys.foldr (fun y acc => (xs.map fun x => (y, x)) ++ acc) []

/-- The interior coordinates (row, column) the source loops iterate over. -/
def interiorCoords (width height : Nat) : List (Nat × Nat) :=
  prodList (List.range' 1 height) (List.range' 1 width)

/-- All coordinates of the bordered array, the commit loop iteration space. -/
def allCoords (width height : Nat) : List (Nat × Nat) :=
  prodList (List.range (height + 2)) (List.range (width + 2))

/-- Chebyshev adjacency-or-equality: q lies in the 3x3 block centered at p.
Stated without subtraction so it is meaningful for all Nat coordinates. -/
def adjB (p q : Nat × Nat) : Bool :=
  decide (p.1 ≤ q.1 + 1 ∧ q.1 ≤ p.1 + 1 ∧ p.2 ≤ q.2 + 1 ∧ q.2 ≤ p.2 + 1)

/-- The 8 neighbors of the cell at row y, column x. -/
def neighbors (y x : Nat) : List (Nat × Nat) :=
  [(y - 1, x - 1), (y - 1, x), (y - 1, x + 1),
   (y, x - 1), (y, x + 1),
   (y + 1, x - 1), (y + 1, x), (y + 1, x + 1)]

/-- Number of live cells among the 8 neighbors of the cell at row y,
column x. -/
def liveNeighborCount (g : Grid) (y x : Nat) : Nat :=
  (neighbors y x).countP fun q => (g q.1 q.2).is_live

/-- The 9 cells touched for a live cell at row y, column x, in loop order. -/
def touchTargets (y x : Nat) : List (Nat × Nat) :=
  [(y + 0 - 1, x + 0 - 1), (y + 0 - 1, x + 1 - 1), (y + 0 - 1, x + 2 - 1),
   (y + 1 - 1, x + 0 - 1), (y + 1 - 1, x + 1 - 1), (y + 1 - 1, x + 2 - 1),
   (y + 2 - 1, x + 0 - 1), (y + 2 - 1, x + 1 - 1), (y + 2 - 1, x + 2 - 1)]

lemma mem_prodList (ys xs : List Nat) (q : Nat × Nat) :
    q ∈ prodList ys xs ↔ q.1 ∈ ys ∧ q.2 ∈ xs := by
  induction ys with
  | nil => simp [prodList]
  | cons y ys ih =>
      obtain ⟨qa, qb⟩ := q
      simp only [prodList, List.foldr_cons, List.mem_append, List.mem_map] at *
      constructor
      · rintro (⟨x, hx, hq⟩ | h)
        · cases hq; simp [hx]
        · rcases ih.1 h with ⟨h1, h2⟩
          exact ⟨List.mem_cons_of_mem _ h1, h2⟩
      · rintro ⟨h1, h2⟩
        rcases List.mem_cons.1 h1 with h1 | h1
        · exact Or.inl ⟨qb, h2, by rw [h1]⟩
        · exact Or.inr (ih.2 ⟨h1, h2⟩)

lemma nodup_prodList {ys xs : List Nat} (hy : ys.Nodup) (hx : xs.Nodup) :
    (prodList ys xs).Nodup := by
  induction ys with
  | nil => simp [prodList]
  | cons y ys ih =>
      simp only [prodList, List.foldr_cons]
      rcases List.nodup_cons.1 hy with ⟨hyn, hyt⟩
      refine List.Nodup.append ?_ (ih hyt) ?_
      · exact hx.map fun a b hab => congrArg Prod.snd hab
      · intro q hq hq'
        rcases List.mem_map.1 hq with ⟨x, _, rfl⟩
        have := (mem_prodList ys xs ⟨y, x⟩).1 hq'
        exact hyn this.1

lemma foldl_prodList {β : Type} (ys xs : List Nat) (f : β → Nat → Nat → β) (init : β) :
    (prodList ys xs).foldl (fun acc p => f acc p.1 p.2) init
      = ys.foldl (fun acc y => xs.foldl (fun acc x => f acc y x) acc) init := by
  induction ys generalizing init with
  | nil => rfl
  | cons y ys ih =>
      simp only [prodList, List.foldr_cons, List.foldl_append, List.foldl_cons, List.foldl_map]
      exact ih _

lemma foldlM_prodList (ys xs : List Nat) (f : Grid → Nat → Nat → Option Grid) (init : Grid) :
    (prodList ys xs).foldlM (fun acc p => f acc p.1 p.2) init
      = ys.foldlM (fun acc y => xs.foldlM (fun acc x => f acc y x) acc) init := by
  induction ys generalizing init with
  | nil => rfl
  | cons y ys ih =>
      have hrow : ∀ (zs : List Nat) (g : Grid),
          (zs.map fun x => (y, x)).foldlM (fun acc p => f acc p.1 p.2) g
            = zs.foldlM (fun acc x => f acc y x) g := by
        intro zs
        induction zs with
        | nil => intro g; rfl
        | cons x zs ihx =>
            intro g
            show (f g y x).bind _ = (f g y x).bind _
            cases f g y x with
            | none => rfl
            | some g' => exact ihx g'
      show ((xs.map fun x => (y, x)) ++ prodList ys xs).foldlM
          (fun acc p => f acc p.1 p.2) init = _
      rw [List.foldlM_append, hrow]
      show (xs.foldlM (fun acc x => f acc y x) init).bind _
          = (xs.foldlM (fun acc x => f acc y x) init).bind _
      cases xs.foldlM (fun acc x => f acc y x) init with
      | none => rfl
      | some g' => exact ih g'

lemma modifyFold_apply (g : Grid) (l : List (Nat × Nat)) (f : Cell → Cell)
    (hnd : l.Nodup) (j i : Nat) :
    g.modifyFold l f j i = if (j, i) ∈ l then f (g j i) else g j i := by
  induction l generalizing g with
  | nil => simp [Grid.modifyFold]
  | cons p rest ih =>
      rcases List.nodup_cons.1 hnd with ⟨hp, hrest⟩
      obtain ⟨py, px⟩ := p
      have step : Grid.modifyFold (g.modifyCell py px f) rest f j i
          = if (j, i) ∈ rest then f (g.modifyCell py px f j i)
            else g.modifyCell py px f j i := ih _ hrest
      show Grid.modifyFold (g.modifyCell py px f) rest f j i = _
      rw [step]
      by_cases hmem : (j, i) ∈ rest
      · have hne : ¬(j = py ∧ i = px) := by
          rintro ⟨rfl, rfl⟩
          exact hp hmem
        simp [Grid.modifyCell, hmem, hne, List.mem_cons]
      · by_cases heq : j = py ∧ i = px
        · obtain ⟨rfl, rfl⟩ := heq
          simp [Grid.modifyCell, hmem]
        · have hne2 : ((j, i) : Nat × Nat) ≠ (py, px) := by
            intro hh
            cases hh
            exact heq ⟨rfl, rfl⟩
          simp [Grid.modifyCell, hmem, heq, hne2, List.mem_cons]

lemma touchNeighborhood_eq_modifyFold (g : Grid) (y x : Nat) :
    g.touchNeighborhood y x = g.modifyFold (touchTargets y x) Cell.touch := rfl

lemma nodup_touchTargets {y x : Nat} (hy : 1 ≤ y) (hx : 1 ≤ x) :
    (touchTargets y x).Nodup := by
  simp only [touchTargets, List.nodup_cons, List.mem_cons, List.mem_singleton,
    List.not_mem_nil, Prod.mk.injEq, List.nodup_nil, and_true, not_or, true_and,
    not_and, not_false_iff]
  omega

lemma mem_touchTargets {y x : Nat} (hy : 1 ≤ y) (hx : 1 ≤ x) (q : Nat × Nat) :
    q ∈ touchTargets y x ↔ adjB (y, x) q = true := by
  obtain ⟨qa, qb⟩ := q
  simp only [touchTargets, adjB, List.mem_cons, List.not_mem_nil, or_false,
    Prod.mk.injEq, decide_eq_true_eq]
  omega

lemma touchNeighborhood_apply (g : Grid) {y x : Nat} (hy : 1 ≤ y) (hx : 1 ≤ x)
    (j i : Nat) :
    g.touchNeighborhood y x j i
      = if adjB (y, x) (j, i) = true then Cell.touch (g j i) else g j i := by
  rw [touchNeighborhood_eq_modifyFold,
    modifyFold_apply _ _ _ (nodup_touchTargets hy hx)]
  simp only [mem_touchTargets hy hx]

lemma is_live_congr {c d : Cell} (h : c.now_state = d.now_state) :
    c.is_live = d.is_live := by
  simp [Cell.is_live, h]

lemma refleshCell_eq (g : Grid) {y x : Nat} (hy : 1 ≤ y) (hx : 1 ≤ x) :
    ∃ g', g.refleshCell y x = some g' ∧ ∀ j i,
      (g' j i).now_state = (g j i).now_state ∧
      (g' j i).count = (g j i).count +
        (if (g y x).is_live = true ∧ adjB (y, x) (j, i) = true ∧ (j, i) ≠ (y, x)
         then 1 else 0) := by
  by_cases hlive : (g y x).is_live = true
  case neg =>
    refine ⟨g, by simp [Grid.refleshCell, hlive], fun j i => ⟨rfl, by simp [hlive]⟩⟩
  case pos =>
    have htn := touchNeighborhood_apply g hy hx
    have hadjself : adjB (y, x) (y, x) = true := by simp [adjB]
    have hself : (g.touchNeighborhood y x) y x = Cell.touch (g y x) := by
      rw [htn y x, if_pos hadjself]
    refine ⟨fun j i => if j = y ∧ i = x then
        Cell.mk (g y x).now_state ((g y x).count + 1 - 1)
      else g.touchNeighborhood y x j i, ?_, ?_⟩
    · simp only [Grid.refleshCell, hlive, if_true, Grid.untouchCell, hself,
        Cell.touch, Cell.untouch, Nat.add_one_ne_zero, if_false, Option.map_some]
      rfl
    · intro j i
      dsimp only
      by_cases hji : j = y ∧ i = x
      · obtain ⟨rfl, rfl⟩ := hji
        rw [if_pos ⟨rfl, rfl⟩]
        constructor
        · rfl
        · simp
      · have hne : ((j, i) : Nat × Nat) ≠ (y, x) := by
          intro hh
          cases hh
          exact hji ⟨rfl, rfl⟩
        rw [if_neg hji, htn j i]
        by_cases hadj : adjB (y, x) (j, i) = true
        · rw [if_pos hadj]
          exact ⟨rfl, by simp [Cell.touch, hlive, hadj, hne]⟩
        · rw [if_neg hadj]
          exact ⟨rfl, by simp [hadj]⟩

lemma refleshFold_eq (l : List (Nat × Nat)) (g : Grid)
    (hl : ∀ p ∈ l, 1 ≤ p.1 ∧ 1 ≤ p.2) :
    ∃ g', l.foldlM (fun g p => Grid.refleshCell g p.1 p.2) g = some g' ∧ ∀ j i,
      (g' j i).now_state = (g j i).now_state ∧
      (g' j i).count = (g j i).count +
        l.countP (fun p =>
          (g p.1 p.2).is_live && adjB p (j, i) && decide ((j, i) ≠ p)) := by
  induction l generalizing g with
  | nil => exact ⟨g, rfl, fun j i => ⟨rfl, by simp⟩⟩
  | cons p rest ih =>
      obtain ⟨hp1, hp2⟩ := hl p (List.mem_cons_self p rest)
      obtain ⟨g1, hstep, hprop⟩ := refleshCell_eq g hp1 hp2
      obtain ⟨g2, hfold, hprop2⟩ :=
        ih g1 (fun q hq => hl q (List.mem_cons_of_mem p hq))
      refine ⟨g2, ?_, ?_⟩
      · show (Grid.refleshCell g p.1 p.2).bind _ = some g2
        rw [hstep]
        exact hfold
      · intro j i
        have hlive_eq : ∀ q : Nat × Nat, (g1 q.1 q.2).is_live = (g q.1 q.2).is_live :=
          fun q => is_live_congr (hprop q.1 q.2).1
        have hcount_congr : rest.countP (fun q =>
              (g1 q.1 q.2).is_live && adjB q (j, i) && decide ((j, i) ≠ q))
            = rest.countP (fun q =>
              (g q.1 q.2).is_live && adjB q (j, i) && decide ((j, i) ≠ q)) := by
          refine List.countP_congr fun q _ => by rw [hlive_eq q]
        constructor
        · exact ((hprop2 j i).1).trans (hprop j i).1
        · rw [(hprop2 j i).2, hcount_congr, (hprop j i).2, List.countP_cons]
          have : (if (g p.1 p.2).is_live = true ∧ adjB (p.1, p.2) (j, i) = true ∧
                (j, i) ≠ (p.1, p.2) then 1 else 0)
              = (if ((g p.1 p.2).is_live && adjB p (j, i) && decide ((j, i) ≠ p)) = true
                then 1 else 0) := by
            simp only [Bool.and_eq_true, decide_eq_true_eq, and_assoc]
          omega

lemma reflesh_state_eq (b : Board) :
    b.reflesh_state
      = ((interiorCoords b.width b.height).foldlM
          (fun g p => Grid.refleshCell g p.1 p.2) b.array).map
        (fun g => { b with array := g }) := by
  unfold Board.reflesh_state interiorCoords
  rw [foldlM_prodList]

lemma mem_interiorCoords (width height : Nat) (q : Nat × Nat) :
    q ∈ interiorCoords width height
      ↔ (1 ≤ q.1 ∧ q.1 ≤ height) ∧ (1 ≤ q.2 ∧ q.2 ≤ width) := by
  rw [interiorCoords, mem_prodList]
  simp only [List.mem_range'_1]
  omega

lemma nodup_interiorCoords (width height : Nat) :
    (interiorCoords width height).Nodup :=
  nodup_prodList (List.nodup_range' 1 height 1 (by decide))
    (List.nodup_range' 1 width 1 (by decide))

lemma mem_neighbors {y x : Nat} (hy : 1 ≤ y) (hx : 1 ≤ x) (q : Nat × Nat) :
    q ∈ neighbors y x ↔ adjB q (y, x) = true ∧ (y, x) ≠ q := by
  obtain ⟨qa, qb⟩ := q
  simp only [neighbors, adjB, List.mem_cons, List.not_mem_nil, or_false,
    Prod.mk.injEq, decide_eq_true_eq, ne_eq, not_and]
  omega

lemma nodup_neighbors {y x : Nat} (hy : 1 ≤ y) (hx : 1 ≤ x) :
    (neighbors y x).Nodup := by
  simp only [neighbors, List.nodup_cons, List.mem_cons, List.mem_singleton,
    List.not_mem_nil, Prod.mk.injEq, List.nodup_nil, and_true, not_or, true_and,
    not_and, not_false_iff]
  omega

lemma countP_toucher_eq_liveNeighborCount (g : Grid) {width height y x : Nat}
    (hborder : ∀ j i, (j = 0 ∨ j = height + 1 ∨ i = 0 ∨ i = width + 1) →
      (g j i).is_live = false)
    (hy1 : 1 ≤ y) (hy2 : y ≤ height) (hx1 : 1 ≤ x) (hx2 : x ≤ width) :
    (interiorCoords width height).countP
        (fun p => (g p.1 p.2).is_live && adjB p (y, x) && decide ((y, x) ≠ p))
      = liveNeighborCount g y x := by
  rw [liveNeighborCount, List.countP_eq_length_filter, List.countP_eq_length_filter]
  have h1 := (nodup_interiorCoords width height).filter
    (fun p => (g p.1 p.2).is_live && adjB p (y, x) && decide ((y, x) ≠ p))
  have h2 := (nodup_neighbors hy1 hx1).filter (fun q => (g q.1 q.2).is_live)
  rw [← List.toFinset_card_of_nodup h1, ← List.toFinset_card_of_nodup h2]
  congr 1
  apply Finset.ext
  intro q
  simp only [List.mem_toFinset, List.mem_filter, mem_interiorCoords,
    mem_neighbors hy1 hx1, Bool.and_eq_true, decide_eq_true_eq]
  constructor
  · rintro ⟨_, ⟨hlv, hadj⟩, hneq⟩
    exact ⟨⟨hadj, hneq⟩, hlv⟩
  · rintro ⟨⟨hadj, hneq⟩, hlv⟩
    have hq1 : q.1 ≠ 0 := by
      intro h
      rw [hborder q.1 q.2 (Or.inl h)] at hlv
      cases hlv
    have hq2 : q.1 ≠ height + 1 := by
      intro h
      rw [hborder q.1 q.2 (Or.inr (Or.inl h))] at hlv
      cases hlv
    have hq3 : q.2 ≠ 0 := by
      intro h
      rw [hborder q.1 q.2 (Or.inr (Or.inr (Or.inl h)))] at hlv
      cases hlv
    have hq4 : q.2 ≠ width + 1 := by
      intro h
      rw [hborder q.1 q.2 (Or.inr (Or.inr (Or.inr h)))] at hlv
      cases hlv
    have hadj' : q.1 ≤ y + 1 ∧ y ≤ q.1 + 1 ∧ q.2 ≤ x + 1 ∧ x ≤ q.2 + 1 :=
      of_decide_eq_true hadj
    exact ⟨⟨by omega, by omega⟩, ⟨hlv, hadj⟩, hneq⟩

/-- Claim C1: starting from a board whose cells all have touch count 0 and
whose border cells are all dead, one call to reflesh_state succeeds and
leaves every interior cell with a touch count equal to the number of live
cells among its 8 neighbors; in particular the liveness of the cell itself
contributes nothing, the self-touch being retracted by untouch. -/
theorem c1_touch_phase (b : Board)
    (hcount : ∀ j i, (b.array j i).count = 0)
    (hborder : ∀ j i, (j = 0 ∨ j = b.height + 1 ∨ i = 0 ∨ i = b.width + 1) →
      (b.array j i).is_live = false) :
    ∃ b', b.reflesh_state = some b' ∧
      ∀ y x, 1 ≤ y → y ≤ b.height → 1 ≤ x → x ≤ b.width →
        (b'.array y x).count = liveNeighborCount b.array y x := by
  obtain ⟨g', hfold, hprop⟩ := refleshFold_eq (interiorCoords b.width b.height)
    b.array
    (fun p hp => by
      have := (mem_interiorCoords _ _ p).1 hp
      exact ⟨this.1.1, this.2.1⟩)
  refine ⟨{ b with array := g' }, ?_, ?_⟩
  · rw [reflesh_state_eq, hfold]
    rfl
  · intro y x hy1 hy2 hx1 hx2
    show (g' y x).count = _
    rw [(hprop y x).2, hcount y x, Nat.zero_add]
    exact countP_toucher_eq_liveNeighborCount b.array hborder hy1 hy2 hx1 hx2

/-- Witness for C1 on a concrete board. -/
theorem c1_touch_phase_witness :
    ∃ b', (Board.new 1 1 1).reflesh_state = some b' ∧
      ∀ y x, 1 ≤ y → y ≤ (Board.new 1 1 1).height → 1 ≤ x →
        x ≤ (Board.new 1 1 1).width →
        (b'.array y x).count = liveNeighborCount (Board.new 1 1 1).array y x :=
  c1_touch_phase (Board.new 1 1 1) (fun _ _ => rfl) (fun _ _ _ => rfl)

/-- Claim C9: reflesh_state never reaches the underflowing decrement in
Cell::untouch: for every board it returns some instead of the none that
models the underflow panic, because untouch is only ever applied to a cell
that has just touched itself. -/
theorem c9_untouch_never_underflows (b : Board) : b.reflesh_state.isSome = true := by
  obtain ⟨g', hfold, _⟩ := refleshFold_eq (interiorCoords b.width b.height)
    b.array
    (fun p hp => by
      have := (mem_interiorCoords _ _ p).1 hp
      exact ⟨this.1.1, this.2.1⟩)
  rw [reflesh_state_eq, hfold]
  rfl

/-- Claim C2: Cell::commit_state sets the cell live exactly on touch count
3, keeps the current liveness exactly on touch count 2, sets it dead on
every other count, and in all cases resets the touch count to 0. -/
theorem c2_commit_rule (c : Cell) :
    c.commit_state = Cell.mk
      (if c.count = 3 then CellState.Live
       else if c.count = 2 then c.now_state
       else CellState.Dead) 0 := by
  rcases c with ⟨s, n⟩
  rcases n with _ | _ | _ | _ | n <;> rfl

lemma enqueue_eq_set {α : Type} (rb : RingBuffer α) (v : α)
    (h : rb.buf_capacity ≠ 0) :
    ∃ rb', rb.enqueue v = some rb' ∧
      rb'.buf = rb.buf.set (rb.write % rb.buf_capacity) v ∧
      rb'.buf_capacity = rb.buf_capacity := by
  unfold RingBuffer.enqueue
  rw [if_neg h]
  by_cases hs : rb.buf_size < rb.buf_capacity
  · rw [if_pos hs]
    exact ⟨_, rfl, rfl, rfl⟩
  · rw [if_neg hs]
    exact ⟨_, rfl, rfl, rfl⟩

/-- Claim C4: the fingerprint enqueued into the history by commit_state is
the hash of the board as it is before the per-cell commit rule runs: the
slot written by the enqueue holds to_hash of the old board, the committed
array is computed from that same old board, and whenever the pre- and
post-commit hashes differ the written slot does not hold the post-commit
hash. -/
theorem c4_records_precommit_hash (b : Board)
    (hcap : b.old_hash.buf_capacity ≠ 0)
    (hlen : b.old_hash.buf.length = b.old_hash.buf_capacity) :
    ∃ b', b.commit_state = some b' ∧
      b'.old_hash.buf[b.old_hash.write % b.old_hash.buf_capacity]?
        = some b.to_hash ∧
      b'.array = b.array.commitAll b.width b.height ∧
      (b.to_hash ≠ b'.to_hash →
        b'.old_hash.buf[b.old_hash.write % b.old_hash.buf_capacity]?
          ≠ some b'.to_hash) := by
  obtain ⟨rb', henq, hbuf, hcapeq⟩ := enqueue_eq_set b.old_hash b.to_hash hcap
  have hget : rb'.buf[b.old_hash.write % b.old_hash.buf_capacity]?
      = some b.to_hash := by
    rw [hbuf]
    refine List.getElem?_set_eq_of_lt _ ?_
    rw [hlen]
    exact Nat.mod_lt _ (Nat.pos_of_ne_zero hcap)
  refine ⟨{ b with array := b.array.commitAll b.width b.height, old_hash := rb' },
    ?_, hget, rfl, ?_⟩
  · rw [Board.commit_state, henq]
    rfl
  · intro hne hgot
    rw [hget] at hgot
    exact hne (Option.some.inj hgot)

/-- Witness for C4 on a concrete board with a single live cell. -/
theorem c4_records_precommit_hash_witness :
    ∃ b', ((Board.new 1 1 1).set_live [(0, 0)]).commit_state = some b' ∧
      b'.old_hash.buf[((Board.new 1 1 1).set_live [(0, 0)]).old_hash.write %
            ((Board.new 1 1 1).set_live [(0, 0)]).old_hash.buf_capacity]?
        = some ((Board.new 1 1 1).set_live [(0, 0)]).to_hash ∧
      b'.array = ((Board.new 1 1 1).set_live [(0, 0)]).array.commitAll
          ((Board.new 1 1 1).set_live [(0, 0)]).width
          ((Board.new 1 1 1).set_live [(0, 0)]).height ∧
      (((Board.new 1 1 1).set_live [(0, 0)]).to_hash ≠ b'.to_hash →
        b'.old_hash.buf[((Board.new 1 1 1).set_live [(0, 0)]).old_hash.write %
              ((Board.new 1 1 1).set_live [(0, 0)]).old_hash.buf_capacity]?
          ≠ some b'.to_hash) :=
  c4_records_precommit_hash ((Board.new 1 1 1).set_live [(0, 0)])
    (by decide) (by decide)

/-- One FNV mixing step: multiply the accumulator by the prime (wrapping)
and xor in the contribution. -/
def fnvStep (hash c : Nat) : Nat := ((FNV_PRIME_64 * hash) % U64) ^^^ c

/-- FNV-style accumulation of a list of per-cell contributions. -/
def fnvAccum (cs : List Nat) : Nat := cs.foldl fnvStep OFFSET_BASIS64

/-- The per-cell contribution the code actually mixes in: (x+x)*(y+y)
(that is 4*x*y) wrapped mod 2^64 when the cell is live, 0 when dead. -/
def cellContrib (g : Grid) (p : Nat × Nat) : Nat :=
  ((p.2 + p.2) * (p.1 + p.1)) % U64 * (if (g p.1 p.2).is_live then 1 else 0)

/-- Counterexample to claim C6 as stated: the fingerprint does not equal
the FNV accumulation whose per-cell contribution is x * y masked by
liveness (FNV1.specHash, written from the spec wording); on a 1 x 1 board
whose single interior cell is live the two differ, because the code mixes
in (x+x)*(y+y) = 4*x*y. -/
theorem c6_counterexample :
    FNV1.hash64 1 1 (fun _ _ => Cell.mk CellState.Live 0)
      ≠ FNV1.specHash 1 1 (fun _ _ => Cell.mk CellState.Live 0) := by decide

/-- Claim C6 amended: the fingerprint equals the FNV-style accumulation,
in row-major order over interior cells only, whose per-cell contribution
is (x+x)*(y+y) = 4*x*y reduced mod 2^64 when the cell is live and 0 when
it is dead. -/
theorem c6_amended_hash_structure (width height : Nat) (g : Grid) :
    FNV1.hash64 width height g
      = fnvAccum ((interiorCoords width height).map (cellContrib g)) := by
  have h := foldl_prodList (List.range' 1 height) (List.range' 1 width)
    (fun acc y x => fnvStep acc (cellContrib g (y, x))) OFFSET_BASIS64
  calc FNV1.hash64 width height g
      = (List.range' 1 height).foldl
          (fun acc y => (List.range' 1 width).foldl
            (fun acc x => fnvStep acc (cellContrib g (y, x))) acc)
          OFFSET_BASIS64 := rfl
    _ = (prodList (List.range' 1 height) (List.range' 1 width)).foldl
          (fun acc p => fnvStep acc (cellContrib g (p.1, p.2)))
          OFFSET_BASIS64 := h.symm
    _ = fnvAccum ((interiorCoords width height).map (cellContrib g)) := by
          unfold fnvAccum interiorCoords
          rw [List.foldl_map]

/-- Counterexample to claim C8 as stated: RingBuffer::new with capacity 0
is not rejected with an error; it returns an ordinary buffer (with empty
backing storage), and it is only a later enqueue on that buffer that fails
(the remainder-by-zero panic, modelled as none). -/
theorem c8_counterexample :
    RingBuffer.new 0 (0 : Nat) = RingBuffer.mk [] 0 0 0 0 ∧
      (RingBuffer.new 0 (0 : Nat)).enqueue 1 = none := by decide

/-- Claim C8 amended: constructing a ring buffer with capacity 0 always
succeeds, returning a buffer with empty backing storage, and the failure
surfaces only on use: every enqueue on the zero-capacity buffer panics
(none), the remainder by zero. -/
theorem c8_amended_zero_capacity {α : Type} (fill data : α) :
    RingBuffer.new 0 fill = RingBuffer.mk [] 0 0 0 0 ∧
      (RingBuffer.new 0 fill).enqueue data = none := by
  constructor
  · rfl
  · rfl

/-- Claim C10: for every capacity C at least 1, a freshly constructed ring
buffer with fill value 0 already answers is_in_data 0 with true, and
consequently a Board whose history is still the fresh buffer reports
is_done exactly when its current hash is 0, before any generation has been
recorded. -/
theorem c10_fresh_history (C : Nat) (hC : 1 ≤ C) :
    (RingBuffer.new C (0 : Nat)).is_in_data 0 = true ∧
    ∀ b : Board, b.old_hash = RingBuffer.new C 0 →
      (b.is_done = true ↔ b.to_hash = 0) := by
  constructor
  · simp only [RingBuffer.is_in_data, RingBuffer.new]
    simp [List.mem_replicate]
    omega
  · intro b hb
    rw [Board.is_done, hb]
    simp only [RingBuffer.is_in_data, RingBuffer.new]
    simp [List.mem_replicate]
    omega

/-- Witness for C10 at capacity 1. -/
theorem c10_fresh_history_witness :
    (RingBuffer.new 1 (0 : Nat)).is_in_data 0 = true ∧
      ((Board.new 1 1 1).is_done = true ↔ (Board.new 1 1 1).to_hash = 0) :=
  ⟨(c10_fresh_history 1 (by decide)).1,
   (c10_fresh_history 1 (by decide)).2 (Board.new 1 1 1) rfl⟩

lemma set_append_length {α : Type} (p q : List α) (n : Nat) (a : α) :
    (p ++ q).set (p.length + n) a = p ++ q.set n a := by
  induction p with
  | nil => simp only [List.nil_append, List.length_nil, Nat.zero_add]
  | cons b p ih =>
      have hidx : (b :: p).length + n = (p.length + n) + 1 := by
        simp only [List.length_cons]
        omega
      rw [List.cons_append, hidx]
      show b :: ((p ++ q).set (p.length + n) a) = b :: (p ++ q.set n a)
      rw [ih]

lemma enqueueAll_append {α : Type} (rb : RingBuffer α) (l1 l2 : List α) :
    rb.enqueueAll (l1 ++ l2) = (rb.enqueueAll l1).bind (fun r => r.enqueueAll l2) := by
  unfold RingBuffer.enqueueAll
  rw [List.foldlM_append]
  rfl

lemma enqueueAll_fill {α : Type} (ws : List α) (p : List α) (k : Nat) (fill : α)
    (hk : ws.length ≤ k) :
    RingBuffer.enqueueAll
        (RingBuffer.mk (p ++ List.replicate k fill) p.length 0 p.length (p.length + k)) ws
      = some (RingBuffer.mk ((p ++ ws) ++ List.replicate (k - ws.length) fill)
          (p.length + ws.length) 0 (p.length + ws.length) (p.length + k)) := by
  induction ws generalizing p k with
  | nil => simp [RingBuffer.enqueueAll]
  | cons w ws ih =>
      obtain ⟨m, rfl⟩ : ∃ m, k = m + 1 := by
        refine ⟨k - 1, ?_⟩
        have h2 := hk
        rw [List.length_cons] at h2
        omega
      have henq : (RingBuffer.mk (p ++ List.replicate (m + 1) fill) p.length 0 p.length
            (p.length + (m + 1))).enqueue w
          = some (RingBuffer.mk ((p ++ [w]) ++ List.replicate m fill) (p.length + 1) 0
              (p.length + 1) (p.length + (m + 1))) := by
        unfold RingBuffer.enqueue
        rw [if_neg (show ¬(p.length + (m + 1) = 0) by omega),
          if_pos (show p.length < p.length + (m + 1) by omega)]
        dsimp only
        rw [Nat.mod_eq_of_lt (show p.length < p.length + (m + 1) by omega)]
        have hset : (p ++ List.replicate (m + 1) fill).set p.length w
            = p ++ (w :: List.replicate m fill) := by
          rw [List.replicate_succ]
          have h0 := set_append_length p (fill :: List.replicate m fill) 0 w
          simp at h0
          simp [h0]
        rw [hset, List.append_assoc]
        rfl
      show ((RingBuffer.mk (p ++ List.replicate (m + 1) fill) p.length 0 p.length
          (p.length + (m + 1))).enqueue w).bind
        (fun r => RingBuffer.enqueueAll r ws) = _
      rw [henq]
      show RingBuffer.enqueueAll (RingBuffer.mk ((p ++ [w]) ++ List.replicate m fill)
        (p.length + 1) 0 (p.length + 1) (p.length + (m + 1))) ws = _
      have h4 : p ++ (w :: ws) = (p ++ [w]) ++ ws := by simp
      have h3 : (m + 1) - (w :: ws).length = m - ws.length := by
        simp only [List.length_cons]
        omega
      have h2 : p.length + (w :: ws).length = (p ++ [w]).length + ws.length := by
        simp only [List.length_cons, List.length_append, List.length_nil]
        omega
      have h1 : p.length + (m + 1) = (p ++ [w]).length + m := by
        simp only [List.length_cons, List.length_append, List.length_nil]
        omega
      have h5 : p.length + 1 = (p ++ [w]).length := by
        simp only [List.length_cons, List.length_append, List.length_nil]
      rw [h4, h3, h2, h1, h5]
      exact ih (p ++ [w]) m (by rw [List.length_cons] at hk; omega)

/-- Claim C7: for capacity C at least 1, enqueueing C + 1 pairwise distinct
values, each distinct from the construction fill value, leaves the buffer
answering is_in_data false for the first value enqueued and true for each
of the other C values. -/
theorem c7_fifo_eviction (C : Nat) (hC : 1 ≤ C) (fill v0 : Nat) (rest : List Nat)
    (hlen : rest.length = C) (hnd : (v0 :: rest).Nodup)
    (hfill : ∀ v ∈ v0 :: rest, v ≠ fill) :
    ∃ rb', (RingBuffer.new C fill).enqueueAll (v0 :: rest) = some rb' ∧
      rb'.is_in_data v0 = false ∧ ∀ v ∈ rest, rb'.is_in_data v = true := by
  have hrest_ne : rest ≠ [] := by
    intro h
    rw [h] at hlen
    simp at hlen
    omega
  have hsplit : v0 :: rest = (v0 :: rest.dropLast) ++ [rest.getLast hrest_ne] := by
    conv_lhs => rw [← List.dropLast_append_getLast hrest_ne]
    rfl
  have hlen2 : (v0 :: rest.dropLast).length = C := by
    simp only [List.length_cons, List.length_dropLast, hlen]
    omega
  have hfirst : (RingBuffer.new C fill).enqueueAll (v0 :: rest.dropLast)
      = some (RingBuffer.mk (v0 :: rest.dropLast) C 0 C C) := by
    have h := enqueueAll_fill (v0 :: rest.dropLast) ([] : List Nat) C fill
      (by rw [hlen2])
    simp only [List.nil_append, List.length_nil, Nat.zero_add, hlen2,
      Nat.sub_self, List.replicate_zero, List.append_nil] at h
    exact h
  have hlast : (RingBuffer.mk (v0 :: rest.dropLast) C 0 C C).enqueue
        (rest.getLast hrest_ne)
      = some (RingBuffer.mk (rest.getLast hrest_ne :: rest.dropLast) 1
          (0 % C + 1) C C) := by
    unfold RingBuffer.enqueue
    rw [if_neg (show ¬(C = 0) by omega), if_neg (show ¬(C < C) by omega)]
    dsimp only
    rw [Nat.mod_self]
    rfl
  refine ⟨RingBuffer.mk (rest.getLast hrest_ne :: rest.dropLast) 1 (0 % C + 1) C C,
    ?_, ?_, ?_⟩
  · rw [hsplit, enqueueAll_append, hfirst]
    show (RingBuffer.mk (v0 :: rest.dropLast) C 0 C C).enqueueAll
      [rest.getLast hrest_ne] = _
    show ((RingBuffer.mk (v0 :: rest.dropLast) C 0 C C).enqueue
      (rest.getLast hrest_ne)).bind _ = _
    rw [hlast]
    rfl
  · have hv0_ne : v0 ≠ rest.getLast hrest_ne := by
      intro h
      exact (List.nodup_cons.1 hnd).1 (h ▸ List.getLast_mem hrest_ne)
    have hv0_not : v0 ∉ rest.dropLast := by
      intro h
      exact (List.nodup_cons.1 hnd).1 (List.mem_of_mem_dropLast h)
    have hnotmem : v0 ∉ rest.getLast hrest_ne :: rest.dropLast := by
      rw [List.mem_cons]
      rintro (h | h)
      · exact hv0_ne h
      · exact hv0_not h
    simpa [RingBuffer.is_in_data] using hnotmem
  · intro v hv
    have hmem : v ∈ rest.getLast hrest_ne :: rest.dropLast := by
      rw [← List.dropLast_append_getLast hrest_ne] at hv
      rcases List.mem_append.1 hv with h | h
      · exact List.mem_cons_of_mem _ h
      · rw [List.mem_singleton] at h
        rw [h]
        exact List.mem_cons_self _ _
    simpa [RingBuffer.is_in_data] using hmem

/-- Witness for C7 at capacity 1 with values 1 and 2 over fill 0. -/
theorem c7_fifo_eviction_witness :
    ∃ rb', (RingBuffer.new 1 (0 : Nat)).enqueueAll (1 :: [2]) = some rb' ∧
      rb'.is_in_data 1 = false ∧ ∀ v ∈ [2], rb'.is_in_data v = true :=
  c7_fifo_eviction 1 (by decide) 0 1 [2] (by decide) (by decide) (by decide)

/-- Claim C3 fails on the code: commit_state applies the Cell commit rule
to border cells too, and border cells are touched by adjacent live interior
cells. On a 3 x 1 board seeded with three live interior cells along its
single row, after one generation the border cell at row 0, column 2 has
been set live (it had touch count 3), although its touch count is back to
0 as the claim says. -/
theorem c3_border_cell_becomes_live :
    (((Board.new 3 1 1).set_live [(0, 0), (1, 0), (2, 0)]).reflesh_state.bind
        Board.commit_state).map
      (fun b => ((b.array 0 2).is_live, (b.array 0 2).count))
      = some (true, 0) := by decide

lemma cell_ext {c d : Cell} (h1 : c.now_state = d.now_state)
    (h2 : c.count = d.count) : c = d := by
  cases c
  cases d
  cases h1
  cases h2
  rfl

lemma commit_state_eq (c : Cell) :
    c.commit_state = Cell.mk
      (if c.count = 3 then CellState.Live
       else if c.count = 2 then c.now_state
       else CellState.Dead) 0 := by
  rcases c with ⟨s, n⟩
  rcases n with _ | _ | _ | _ | n <;> rfl

lemma hash64_congr {width height : Nat} {g g' : Grid}
    (h : ∀ j i, (g j i).is_live = (g' j i).is_live) :
    FNV1.hash64 width height g = FNV1.hash64 width height g' := by
  unfold FNV1.hash64
  have hfun : (fun (hash : Nat) y => (List.range' 1 width).foldl
        (fun hash x => ((FNV_PRIME_64 * hash) % U64) ^^^
          (((x + x) * (y + y)) % U64 * (if (g y x).is_live then 1 else 0))) hash)
      = (fun (hash : Nat) y => (List.range' 1 width).foldl
        (fun hash x => ((FNV_PRIME_64 * hash) % U64) ^^^
          (((x + x) * (y + y)) % U64 * (if (g' y x).is_live then 1 else 0))) hash) := by
    funext hash y
    congr 1
    funext hash x
    rw [h y x]
  rw [hfun]

lemma mem_allCoords (width height : Nat) (q : Nat × Nat) :
    q ∈ allCoords width height ↔ q.1 < height + 2 ∧ q.2 < width + 2 := by
  rw [allCoords, mem_prodList]
  simp only [List.mem_range]

lemma nodup_allCoords (width height : Nat) : (allCoords width height).Nodup :=
  nodup_prodList (List.nodup_range _) (List.nodup_range _)

lemma commitAll_eq_modifyFold (g : Grid) (width height : Nat) :
    g.commitAll width height
      = g.modifyFold (allCoords width height) Cell.commit_state := by
  unfold Grid.commitAll allCoords Grid.modifyFold
  exact (foldl_prodList (List.range (height + 2)) (List.range (width + 2))
    (fun g y x => Grid.modifyCell g y x Cell.commit_state) g).symm

lemma commitAll_apply (g : Grid) (width height j i : Nat) :
    g.commitAll width height j i
      = if j < height + 2 ∧ i < width + 2 then (g j i).commit_state else g j i := by
  rw [commitAll_eq_modifyFold, modifyFold_apply _ _ _ (nodup_allCoords width height)]
  simp only [mem_allCoords]

lemma enqueue_new {α : Type} (C : Nat) (fill v : α) (hC : 1 ≤ C) :
    (RingBuffer.new C fill).enqueue v
      = some (RingBuffer.mk (v :: List.replicate (C - 1) fill) 1 0 1 C) := by
  obtain ⟨m, rfl⟩ : ∃ m, C = m + 1 := ⟨C - 1, by omega⟩
  unfold RingBuffer.enqueue RingBuffer.new
  rw [if_neg (show ¬(m + 1 = 0) by omega), if_pos (show 0 < m + 1 by omega)]
  dsimp only
  rw [Nat.zero_mod, List.replicate_succ]
  rfl

/-- The four grid coordinates (row, column) of a 2 x 2 block seeded through
set_live at interior points (s, t), (s+1, t), (s, t+1), (s+1, t+1). -/
def blockCells (s t : Nat) : List (Nat × Nat) :=
  [(t + 1, s + 1), (t + 1, s + 2), (t + 2, s + 1), (t + 2, s + 2)]

lemma nodup_blockCells (s t : Nat) : (blockCells s t).Nodup := by
  simp only [blockCells, List.nodup_cons, List.mem_cons, List.mem_singleton,
    List.not_mem_nil, Prod.mk.injEq, List.nodup_nil, and_true, not_or, true_and,
    not_and, not_false_iff]
  omega

lemma countP_blockCells_self {s t j i : Nat} (h : (j, i) ∈ blockCells s t) :
    (blockCells s t).countP
      (fun p => adjB p (j, i) && decide ((j, i) ≠ p)) = 3 := by
  simp only [blockCells, List.mem_cons, List.not_mem_nil, or_false,
    Prod.mk.injEq] at h
  simp only [blockCells, List.countP_cons, List.countP_nil, Bool.and_eq_true,
    decide_eq_true_eq, adjB, ne_eq, Prod.mk.injEq, not_and, Nat.zero_add]
  rcases h with ⟨rfl, rfl⟩ | ⟨rfl, rfl⟩ | ⟨rfl, rfl⟩ | ⟨rfl, rfl⟩ <;>
    · split_ifs <;> omega

lemma countP_blockCells_other {s t j i : Nat} (h : (j, i) ∉ blockCells s t) :
    (blockCells s t).countP
      (fun p => adjB p (j, i) && decide ((j, i) ≠ p)) ≠ 3 := by
  simp only [blockCells, List.mem_cons, List.not_mem_nil, or_false, not_or,
    Prod.mk.injEq, not_and] at h
  simp only [blockCells, List.countP_cons, List.countP_nil, Bool.and_eq_true,
    decide_eq_true_eq, adjB, ne_eq, Prod.mk.injEq, not_and, Nat.zero_add]
  split_ifs <;> omega

lemma countP_blockCells_far {s t j i width height : Nat}
    (hs2 : s + 3 ≤ width) (ht2 : t + 3 ≤ height)
    (h : ¬(j < height + 2 ∧ i < width + 2)) :
    (blockCells s t).countP
      (fun p => adjB p (j, i) && decide ((j, i) ≠ p)) = 0 := by
  simp only [blockCells, List.countP_cons, List.countP_nil, Bool.and_eq_true,
    decide_eq_true_eq, adjB, ne_eq, Prod.mk.injEq, not_and, Nat.zero_add]
  split_ifs <;> omega

lemma c5_core (W H C s t : Nat) (b1 : Board) (hC : 1 ≤ C)
    (hs1 : 1 ≤ s) (hs2 : s + 3 ≤ W) (ht1 : 1 ≤ t) (ht2 : t + 3 ≤ H)
    (hw : b1.width = W) (hh : b1.height = H)
    (hoh : b1.old_hash = RingBuffer.new C 0)
    (hg1 : ∀ j i, b1.array j i = if (j, i) ∈ blockCells s t
        then Cell.mk CellState.Live 0 else Cell.mk CellState.Dead 0) :
    ∃ b', (b1.reflesh_state.bind Board.commit_state) = some b' ∧
      b'.is_done = true := by
  have hlive1 : ∀ j i, (b1.array j i).is_live
      = decide ((j, i) ∈ blockCells s t) := by
    intro j i
    rw [hg1 j i]
    by_cases hb : (j, i) ∈ blockCells s t
    · simp [hb, Cell.is_live]
    · simp [hb, Cell.is_live]
  have hcount1 : ∀ j i, (b1.array j i).count = 0 := by
    intro j i
    rw [hg1 j i]
    by_cases hb : (j, i) ∈ blockCells s t
    · simp [hb]
    · simp [hb]
  obtain ⟨g2, hfold, hprop⟩ := refleshFold_eq (interiorCoords W H) b1.array
    (fun p hp => by
      have h := (mem_interiorCoords _ _ p).1 hp
      exact ⟨h.1.1, h.2.1⟩)
  have hreflesh : b1.reflesh_state = some { b1 with array := g2 } := by
    rw [reflesh_state_eq b1, hw, hh, hfold]
    rfl
  have hcnt : ∀ j i, (g2 j i).count
      = (blockCells s t).countP
          (fun p => adjB p (j, i) && decide ((j, i) ≠ p)) := by
    intro j i
    rw [(hprop j i).2, hcount1 j i, Nat.zero_add]
    rw [List.countP_eq_length_filter, List.countP_eq_length_filter]
    rw [← List.toFinset_card_of_nodup ((nodup_interiorCoords W H).filter _),
      ← List.toFinset_card_of_nodup ((nodup_blockCells s t).filter _)]
    congr 1
    apply Finset.ext
    intro q
    simp only [List.mem_toFinset, List.mem_filter, mem_interiorCoords,
      Bool.and_eq_true, decide_eq_true_eq, hlive1, Prod.mk.eta]
    constructor
    · rintro ⟨_, ⟨⟨hmem, hadj⟩, hne⟩⟩
      exact ⟨hmem, hadj, hne⟩
    · rintro ⟨hmem, hadj, hne⟩
      have hq := hmem
      simp only [blockCells, List.mem_cons, List.not_mem_nil, or_false,
        Prod.ext_iff] at hq
      refine ⟨⟨⟨?_, ?_⟩, ⟨?_, ?_⟩⟩, ⟨hmem, hadj⟩, hne⟩ <;> omega
  have henq2 : ({ b1 with array := g2 } : Board).old_hash.enqueue
        ({ b1 with array := g2 } : Board).to_hash
      = some (RingBuffer.mk (({ b1 with array := g2 } : Board).to_hash ::
          List.replicate (C - 1) 0) 1 0 1 C) := by
    have hB2oh : ({ b1 with array := g2 } : Board).old_hash
        = RingBuffer.new C 0 := hoh
    rw [hB2oh]
    exact enqueue_new C 0 _ hC
  have hcommit : ({ b1 with array := g2 } : Board).commit_state
      = some { b1 with
          array := Grid.commitAll g2 W H
          old_hash := RingBuffer.mk (({ b1 with array := g2 } : Board).to_hash ::
            List.replicate (C - 1) 0) 1 0 1 C } := by
    show (({ b1 with array := g2 } : Board).old_hash.enqueue
      ({ b1 with array := g2 } : Board).to_hash).map _ = _
    rw [henq2]
    simp only [Option.map_some']
    rw [hw, hh]
  have hback : Grid.commitAll g2 W H = b1.array := by
    funext j i
    rw [commitAll_apply]
    by_cases hin : j < H + 2 ∧ i < W + 2
    · rw [if_pos hin, commit_state_eq]
      by_cases hb : (j, i) ∈ blockCells s t
      · rw [hg1 j i, if_pos hb, hcnt j i, countP_blockCells_self hb]
        rfl
      · rw [hg1 j i, if_neg hb, hcnt j i,
          if_neg (countP_blockCells_other hb)]
        have hstate : (g2 j i).now_state = CellState.Dead := by
          rw [(hprop j i).1, hg1 j i, if_neg hb]
        rw [hstate, ite_self]
    · rw [if_neg hin]
      refine cell_ext (hprop j i).1 ?_
      rw [hcnt j i, countP_blockCells_far hs2 ht2 hin, hcount1 j i]
  have hhash_eq : ({ b1 with array := g2 } : Board).to_hash = b1.to_hash := by
    show FNV1.hash64 b1.width b1.height g2
      = FNV1.hash64 b1.width b1.height b1.array
    exact hash64_congr (fun j i => is_live_congr ((hprop j i).1))
  refine ⟨{ b1 with
      array := Grid.commitAll g2 W H
      old_hash := RingBuffer.mk (({ b1 with array := g2 } : Board).to_hash ::
        List.replicate (C - 1) 0) 1 0 1 C }, ?_, ?_⟩
  · rw [hreflesh]
    show ({ b1 with array := g2 } : Board).commit_state = _
    exact hcommit
  · have hth : ({ b1 with
        array := Grid.commitAll g2 W H
        old_hash := RingBuffer.mk (({ b1 with array := g2 } : Board).to_hash ::
          List.replicate (C - 1) 0) 1 0 1 C } : Board).to_hash = b1.to_hash := by
      show FNV1.hash64 b1.width b1.height (Grid.commitAll g2 W H)
        = FNV1.hash64 b1.width b1.height b1.array
      rw [hback]
    show (RingBuffer.mk (({ b1 with array := g2 } : Board).to_hash ::
        List.replicate (C - 1) 0) 1 0 1 C).is_in_data
      (({ b1 with
        array := Grid.commitAll g2 W H
        old_hash := RingBuffer.mk (({ b1 with array := g2 } : Board).to_hash ::
          List.replicate (C - 1) 0) 1 0 1 C } : Board).to_hash) = true
    rw [hth, hhash_eq]
    simp [RingBuffer.is_in_data]

/-- Claim C5: a fresh board with history capacity at least 1, seeded with a
single 2 x 2 block of live interior cells whose 3 x 3 surroundings lie
strictly inside the interior, reaches is_done = true after exactly one
generation (one reflesh_state followed by one commit_state): the block is a
still life, so the fingerprint enqueued during the commit equals the
fingerprint of the committed state. -/
theorem c5_still_life_halts (W H C s t : Nat) (hC : 1 ≤ C)
    (hs1 : 1 ≤ s) (hs2 : s + 3 ≤ W) (ht1 : 1 ≤ t) (ht2 : t + 3 ≤ H) :
    ∃ b', ((((Board.new W H C).set_live
          [(s, t), (s + 1, t), (s, t + 1), (s + 1, t + 1)]).reflesh_state).bind
        Board.commit_state) = some b' ∧ b'.is_done = true := by
  refine c5_core W H C s t _ hC hs1 hs2 ht1 ht2 rfl rfl rfl ?_
  intro j i
  have harr : ((Board.new W H C).set_live
        [(s, t), (s + 1, t), (s, t + 1), (s + 1, t + 1)]).array
      = Grid.modifyFold (fun _ _ => Cell.new) (blockCells s t)
          (fun c => c.set_state CellState.Live) := rfl
  rw [harr, modifyFold_apply _ _ _ (nodup_blockCells s t)]
  by_cases hb : (j, i) ∈ blockCells s t
  · rw [if_pos hb, if_pos hb]
    rfl
  · rw [if_neg hb, if_neg hb]
    rfl

/-- Witness for C5 on the smallest admissible board: 4 x 4 interior,
history capacity 1, block seeded at interior coordinates (1, 1). -/
theorem c5_still_life_halts_witness :
    ∃ b', ((((Board.new 4 4 1).set_live
          [(1, 1), (1 + 1, 1), (1, 1 + 1), (1 + 1, 1 + 1)]).reflesh_state).bind
        Board.commit_state) = some b' ∧ b'.is_done = true :=
  c5_still_life_halts 4 4 1 1 1 (by decide) (by decide) (by decide) (by decide)
    (by decide)
